import Mathlib

/-!
Verification of the kinematic core of the `theseus` robot kinematics library
(`theseus/embodied/robot/{joint,robot,forward_kinematics}.py`).

The embedding works over exact real numbers: each batched `torch` tensor
operation is modelled per batch row.  A `(N, 3, 4)` pose tensor row becomes an
`SE3k` value (rotation block + translation column), an `(N, dof)` joint-angle
batch becomes one `ℕ → ℝ` map per row, and the imperative tensor writes of the
propagator become `Function.update` folds over the traversal order.

The SE(3)/SO(3) functional primitives (`se3.compose`, `se3.inverse`,
`se3.adjoint`, `so3.exp`, `se3.project`) and the `Link`/`FixedJoint` classes
live in modules of this repository that are not part of the sources at hand
(`theseus/labs/lie_functional`, `theseus/embodied/robot/link.py`); those are
modelled from the specification and are marked as such in their doc comments.
-/

noncomputable section

namespace Theseus

/-- 3-vector over the reals (one row of a `(N, 3)` tensor). -/
abbrev Vec3 := Fin 3 → ℝ

/-- 6-vector over the reals: a tangent vector of SE(3), linear part in slots
0-2 and angular part in slots 3-5, matching `Joint._axis` in `joint.py`. -/
abbrev Vec6 := Fin 6 → ℝ

/-- 3x3 real matrix (a rotation block). -/
abbrev Mat3 := Matrix (Fin 3) (Fin 3) ℝ

/-- 3x4 real matrix: one row of a batched pose / ambient-gradient tensor. -/
abbrev AMat := Matrix (Fin 3) (Fin 4) ℝ

/-- One batch element of a rigid transform: rotation block and translation
column of the `(N, 3, 4)` representation used throughout the library. -/
@[ext]
structure SE3k where
  rot : Mat3
  trans : Vec3

namespace se3

/-- Modelled from the spec: the identity transform (rotation block `I`,
zero translation), i.e. the root pose written by
`_forward_kinematics_helper` (`forward_kinematics.py` lines 41-44). -/
def one : SE3k := ⟨1, 0⟩

/-- Modelled from the spec: `se3.compose` of `theseus.labs.lie_functional`
(not among the sources), "matrix composition in SE(3)" (spec section 4.1):
the rotation blocks multiply and the first transform acts on the second
translation column. -/
def compose (g0 g1 : SE3k) : SE3k :=
  ⟨g0.rot * g1.rot, g0.rot.mulVec g1.trans + g0.trans⟩

/-- Modelled from the spec: `se3.inverse`, "transpose rotation block, negate
rotated translation" (spec section 4.1). -/
def inverse (g : SE3k) : SE3k :=
  ⟨g.rot.transpose, -(g.rot.transpose.mulVec g.trans)⟩

/-- Cross product of 3-vectors, used by the hat map and the adjoint. -/
def cross (a b : Vec3) : Vec3 :=
  ![a 1 * b 2 - a 2 * b 1, a 2 * b 0 - a 0 * b 2, a 0 * b 1 - a 1 * b 0]

/-- The skew-symmetric hat matrix of a 3-vector. -/
def hat (w : Vec3) : Mat3 :=
  !![0, -w 2, w 1; w 2, 0, -w 0; -w 1, w 0, 0]

/-- Linear part (slots 0-2) of a 6-vector tangent. -/
def vpart (x : Vec6) : Vec3 := ![x 0, x 1, x 2]

/-- Angular part (slots 3-5) of a 6-vector tangent. -/
def wpart (x : Vec6) : Vec3 := ![x 3, x 4, x 5]

/-- Join a linear and an angular 3-vector into a 6-vector tangent. -/
def join (a b : Vec3) : Vec6 := ![a 0, a 1, a 2, b 0, b 1, b 2]

/-- Modelled from the spec: the action of `se3.adjoint g` (a 6x6 matrix in the
missing `lie_functional` module) on a tangent vector: with tangent ordering
(linear; angular) the adjoint is the block matrix [[R, [t]x R], [0, R]]
transporting a tangent vector between the frames related by `g`
(spec section 4.1). -/
def adjAct (g : SE3k) (x : Vec6) : Vec6 :=
  join (g.rot.mulVec (vpart x) + cross g.trans (g.rot.mulVec (wpart x)))
    (g.rot.mulVec (wpart x))

/-- The `(3, 4)` matrix view of a pose row, as handed to the autograd
backward pass (`ret` in `ForwardKinematics.backward`). -/
def toMat (g : SE3k) : AMat :=
  Matrix.of fun i j => if h : (j : ℕ) < 3 then g.rot i ⟨j, h⟩ else g.trans i

/-- Modelled from the spec: `se3.project`, mapping a gradient with respect to
the raw `(3, 4)` matrix entries onto the 6 tangent coordinates "by
selecting/recombining the matrix-gradient blocks" (spec section 4.1): the
linear slots take the translation-column gradient and the angular slots take
the antisymmetric recombination of the rotation-block gradient. -/
def project (m : AMat) : Vec6 :=
  join ![m 0 3, m 1 3, m 2 3]
    ![m 2 1 - m 1 2, m 0 2 - m 2 0, m 1 0 - m 0 1]

end se3

namespace so3

/-- Modelled from the spec: `so3.exp` of the missing `lie_functional` module,
the "closed-form Rodrigues-style exponential for the rotation block"
(spec section 4.1).  The floating-point small-angle Taylor branch below the
1e-8 threshold is a numerical guard; over exact reals it only has to supply
the exact limit value at angle zero, the identity. -/
def exp (w : Vec3) : Mat3 :=
  let θ := Real.sqrt (w 0 ^ 2 + w 1 ^ 2 + w 2 ^ 2)
  if θ = 0 then 1
  else
    1 + (Real.sin θ / θ) • se3.hat w +
      ((1 - Real.cos θ) / θ ^ 2) • (se3.hat w * se3.hat w)

end so3

/-- The closed-form rotation of `RevoluteJointX._rotation_impl`
(`joint.py` lines 165-176). -/
def rotX (θ : ℝ) : Mat3 :=
  !![1, 0, 0; 0, Real.cos θ, -Real.sin θ; 0, Real.sin θ, Real.cos θ]

/-- The closed-form rotation of `RevoluteJointY._rotation_impl`
(`joint.py` lines 192-203). -/
def rotY (θ : ℝ) : Mat3 :=
  !![Real.cos θ, 0, Real.sin θ; 0, 1, 0; -Real.sin θ, 0, Real.cos θ]

/-- The closed-form rotation of `RevoluteJointZ._rotation_impl`
(`joint.py` lines 219-230). -/
def rotZ (θ : ℝ) : Mat3 :=
  !![Real.cos θ, -Real.sin θ, 0; Real.sin θ, Real.cos θ, 0; 0, 0, 1]

/-- The variant tag of a joint: the leaf class in the `Joint` hierarchy of
`joint.py` (`FixedJoint` itself is in the missing `link.py`; the spec lists it
as the 0-dof variant). -/
inductive JointType where
  | fixed
  | revolute (ax : Vec3)
  | revoluteX
  | revoluteY
  | revoluteZ
  | prismatic (ax : Vec3)
  | prismaticX
  | prismaticY
  | prismaticZ

/-- `isinstance(joint, FixedJoint)` of the source. -/
def JointType.isFixed : JointType → Bool
  | .fixed => true
  | _ => false

/-- Whether the variant is one of the prismatic classes
(`_PrismaticJointImpl` subclasses in `joint.py`). -/
def JointType.isPrismatic : JointType → Bool
  | .prismatic _ => true
  | .prismaticX => true
  | .prismaticY => true
  | .prismaticZ => true
  | _ => false

/-- A joint after chain construction: name, assigned id, parent and child
link ids, fixed local origin, and variant tag (`Joint` in `joint.py`; the
object references `parent`/`child` become link ids, following the spec's
design note on flat integer indexing). -/
structure Joint where
  name : String
  id : ℕ
  parent : ℕ
  child : ℕ
  origin : SE3k
  jtype : JointType

/-- The fixed 6-vector `Joint._axis`: zero except for the slots written by
each concrete class constructor in `joint.py` (`RevoluteJoint` writes the
angular slots 3-5 from its axis; `RevoluteJointX/Y/Z` set slot 3/4/5;
`PrismaticJoint` writes the linear slots 0-2; `PrismaticJointX/Y/Z` set
slot 3/4/5 exactly as written in the source constructors). -/
def Joint.axis (j : Joint) : Vec6 :=
  match j.jtype with
  | .fixed => 0
  | .revolute ax => se3.join 0 ax
  | .revoluteX => se3.join 0 ![1, 0, 0]
  | .revoluteY => se3.join 0 ![0, 1, 0]
  | .revoluteZ => se3.join 0 ![0, 0, 1]
  | .prismatic ax => se3.join ax 0
  | .prismaticX => se3.join 0 ![1, 0, 0]
  | .prismaticY => se3.join 0 ![0, 1, 0]
  | .prismaticZ => se3.join 0 ![0, 0, 1]

/-- `relative_pose` of each joint class evaluated on one batch element.
* fixed: modelled from the spec ("Fixed joints return their constant origin
  regardless of angle"; the `FixedJoint` class is in the missing `link.py`);
* revolute variants: `_RevoluteJointImpl.relative_pose` (`joint.py` lines
  112-117) with the per-class `_rotation_impl`;
* generic prismatic: `_PrismaticJointImpl.relative_pose` (lines 252-259) with
  `_translation_impl` = angle * axis;
* principal-axis prismatic: the specialized `relative_pose` overrides (lines
  316-324, 349-357, 382-390) which scale one origin rotation column. -/
def Joint.relativePose (j : Joint) (θ : ℝ) : SE3k :=
  match j.jtype with
  | .fixed => j.origin
  | .revolute ax => ⟨j.origin.rot * so3.exp (θ • ax), j.origin.trans⟩
  | .revoluteX => ⟨j.origin.rot * rotX θ, j.origin.trans⟩
  | .revoluteY => ⟨j.origin.rot * rotY θ, j.origin.trans⟩
  | .revoluteZ => ⟨j.origin.rot * rotZ θ, j.origin.trans⟩
  | .prismatic ax => ⟨j.origin.rot, j.origin.rot.mulVec (θ • ax) + j.origin.trans⟩
  | .prismaticX => ⟨j.origin.rot, fun r => θ * j.origin.rot r 0 + j.origin.trans r⟩
  | .prismaticY => ⟨j.origin.rot, fun r => θ * j.origin.rot r 1 + j.origin.trans r⟩
  | .prismaticZ => ⟨j.origin.rot, fun r => θ * j.origin.rot r 2 + j.origin.trans r⟩

/-- A link after chain construction (the `Link` class lives in the missing
`link.py`; its fields are modelled from the spec's Link data model and from
the accesses made by `robot.py` and `forward_kinematics.py`): name, assigned
id, the parent joint (`None` for the root), the ids of the ancestor links on
the root path (`robot.py` line 152 stores the ancestor link objects; here
their ids), and the `angle_ids` of the non-fixed ancestor joints. -/
structure Link where
  name : String
  id : ℕ
  parent : Option Joint
  ancestors : List ℕ
  angle_ids : List ℕ

/-- Placeholder link returned by out-of-range indexing (out-of-range indexing
raises in the source; every theorem below forbids it by hypothesis). -/
def defaultLink : Link := ⟨"", 0, none, [], []⟩

/-- The constructed kinematic chain (`Robot` in `robot.py`): the flat link
array in id order and the scalar `dof`. -/
structure Robot where
  name : String
  links : List Link
  dof : ℕ

/-- `robot.links[id]`. -/
def Robot.linkAt (r : Robot) (id : ℕ) : Link := r.links.getD id defaultLink

/-- `robot.link_map[name]` as a partial lookup (a missing key raises
`KeyError` in the source; here `none`). -/
def Robot.linkMap (r : Robot) (n : String) : Option Link :=
  r.links.find? (fun L => L.name == n)

/-- The invariants that `Robot.from_urdf_file` (`robot.py` lines 116-158)
establishes on the constructed chain:
* links are stored in id order, the root is link 0 with no parent and empty
  `ancestors`/`angle_ids`;
* every non-root link has a parent joint whose parent link has a smaller id
  and whose own id is one less than the link's id (the builder interleaves
  `joint.set_id(num_joints)` with `joint.child.set_id(num_joints + 1)`);
* a joint is fixed exactly when its assigned id is at least `dof` (non-fixed
  joints get the dense ids `[0, dof)` in the breadth-first pass, fixed joints
  the ids from `dof` upwards in the clean-up pass);
* `ancestors`/`angle_ids` satisfy the recurrences assigned by the final loop
  (`robot.py` lines 150-158);
* `dof` is smaller than the number of links (the root plus one child link per
  joint, each non-fixed joint contributing 1 to `dof`). -/
structure WellFormed (r : Robot) : Prop where
  nonempty : r.links ≠ []
  link_ids : ∀ i : ℕ, ∀ h : i < r.links.length, (r.links.get ⟨i, h⟩).id = i
  root_parent : (r.linkAt 0).parent = none
  root_anc : (r.linkAt 0).ancestors = []
  root_aid : (r.linkAt 0).angle_ids = []
  parent_spec : ∀ i : ℕ, 0 < i → i < r.links.length →
    ∃ j : Joint, (r.linkAt i).parent = some j ∧ j.parent < i ∧ j.id + 1 = i
  fixed_iff : ∀ i : ℕ, ∀ j : Joint, i < r.links.length →
    (r.linkAt i).parent = some j → (j.jtype.isFixed = true ↔ r.dof ≤ j.id)
  anc_rec : ∀ i : ℕ, ∀ j : Joint, i < r.links.length →
    (r.linkAt i).parent = some j →
    (r.linkAt i).ancestors = (r.linkAt j.parent).ancestors ++ [j.parent]
  aid_rec : ∀ i : ℕ, ∀ j : Joint, i < r.links.length →
    (r.linkAt i).parent = some j →
    (r.linkAt i).angle_ids =
      (r.linkAt j.parent).angle_ids ++ (if j.jtype.isFixed then [] else [j.id])
  dof_lt : r.dof < r.links.length

/-- The `relative_pose` call made by `_forward_kinematics_helper`
(`forward_kinematics.py` lines 50-54): joints with an id below `dof` are
evaluated at their angle column, the remaining (fixed) joints at no angle
(`FixedJoint.relative_pose()` returns the constant origin). -/
def jointRel (r : Robot) (j : Joint) (angles : ℕ → ℝ) : SE3k :=
  if j.id < r.dof then j.relativePose (angles j.id) else j.origin

/-- The ascending duplicate-free id list `pose_ids`
(`sorted(list(set([anc.id for anc in ancestors] + link_ids)))`,
`forward_kinematics.py` lines 29-32). -/
def computePoseIds (req : List Link) : List ℕ :=
  (((req.map (fun L => L.ancestors)).flatten ++ req.map (fun L => L.id)).dedup).insertionSort
    (· ≤ ·)

/-- One iteration of the pose-propagation loop of
`_forward_kinematics_helper` (`forward_kinematics.py` lines 46-55): look up
the link being visited, its parent joint and the parent link, and write
`compose(parent_pose, relative_pose)` into the visited slot.  The `none`
branches (missing parent, parent pose not yet computed) raise in the source
and are unreachable under `WellFormed`. -/
def fkStep (r : Robot) (angles : ℕ → ℝ) (poses : ℕ → Option SE3k) (id : ℕ) :
    ℕ → Option SE3k :=
  match (r.linkAt id).parent with
  | none => poses
  | some j =>
    match poses j.parent with
    | none => poses
    | some p => Function.update poses id (some (se3.compose p (jointRel r j angles)))

/-- The pose-propagation loop folded over the remaining traversal order. -/
def fkLoop (r : Robot) (angles : ℕ → ℝ) : List ℕ → (ℕ → Option SE3k) → ℕ → Option SE3k
  | [], poses => poses
  | id :: rest, poses => fkLoop r angles rest (fkStep r angles poses id)

/-- `_forward_kinematics_helper` on one batch row, after the shape check: the
root slot holds the identity and the loop visits `pose_ids[1:]`. -/
def fkHelperRow (r : Robot) (poseIds : List ℕ) (angles : ℕ → ℝ) : ℕ → Option SE3k :=
  fkLoop r angles poseIds.tail
    (Function.update (fun _ => none) 0 (some se3.one))

/-- Errors surfaced by the forward-kinematics entry points. -/
inductive FkError where
  | shapeError (robotName : String)
  | lookupError (linkName : String)
deriving DecidableEq

/-- A raw input tensor: its dynamic shape plus an entry map indexed by a
multi-index (entries outside the shape are junk). -/
structure RawTensor where
  shape : List ℕ
  data : List ℕ → ℝ

/-- `_forward_kinematics_helper` with its shape validation
(`forward_kinematics.py` lines 35-38): a non-2-D batch or a column count
different from `dof` raises `ValueError` before any pose is computed;
otherwise every batch row is propagated. -/
def fkHelperChecked (r : Robot) (poseIds : List ℕ) (t : RawTensor) :
    Except FkError (List (ℕ → Option SE3k)) :=
  if t.shape.length ≠ 2 ∨ t.shape.getD 1 0 ≠ r.dof then
    .error (.shapeError r.name)
  else
    .ok ((List.range (t.shape.getD 0 0)).map fun n =>
      fkHelperRow r poseIds (fun jj => t.data [n, jj]))

/-- The link-name resolution of `ForwardKinematicsFactory`
(`forward_kinematics.py` line 25): `[robot.link_map[name] for name in
link_names]`, raising `KeyError` at the first unknown name. -/
def resolveLinks (r : Robot) : List String → Except FkError (List Link)
  | [] => .ok []
  | n :: ns =>
    match r.linkMap n with
    | none => .error (.lookupError n)
    | some L => do
      let rest ← resolveLinks r ns
      pure (L :: rest)

/-- A full forward-kinematics call: build the factory for the requested link
names (all links when `none`), validate the angle batch, and return the
requested links' pose slots for every batch row. -/
def fkCall (r : Robot) (names : Option (List String)) (t : RawTensor) :
    Except FkError (List (List (Option SE3k))) := do
  let req ←
    match names with
    | none => pure r.links
    | some ns => resolveLinks r ns
  let rows ← fkHelperChecked r (computePoseIds req) t
  pure (rows.map fun row => req.map fun L => row L.id)

/-- The loop of `_jforward_kinematics_helper` (`forward_kinematics.py` lines
68-75): visiting `pose_ids[1:]` in order, stop (`break`) at the first fixed
parent joint (`joint.id >= robot.dof`), otherwise write
`adjoint(poses[link.id]) @ joint.axis` into column `joint.id`.  A missing
parent or pose slot raises in the source (unreachable under `WellFormed`;
the pose slot is read through `getD`). -/
def jfkLoop (r : Robot) (poses : ℕ → Option SE3k) :
    List ℕ → (ℕ → Vec6) → ℕ → Vec6
  | [], jposes => jposes
  | id :: rest, jposes =>
    match (r.linkAt id).parent with
    | none => jfkLoop r poses rest jposes
    | some j =>
      if r.dof ≤ j.id then jposes
      else
        jfkLoop r poses rest
          (Function.update jposes j.id (se3.adjAct ((poses id).getD se3.one) j.axis))

/-- `_jforward_kinematics_helper` on one batch row: the `(6, dof)` tensor
`jposes` as a map from column index to 6-vector, starting from zeros. -/
def jfkJposesRow (r : Robot) (poseIds : List ℕ) (poses : ℕ → Option SE3k) :
    ℕ → Vec6 :=
  jfkLoop r poses poseIds.tail (fun _ => 0)

/-- `_jforward_kinematics_impl` on one batch row (`forward_kinematics.py`
lines 79-93): run the forward pass, build `jposes`, and for every requested
link assemble a zero `(6, dof)` matrix whose `angle_ids` columns receive
`adjoint(inverse(pose)) @ jposes[:, :, sel]`; also return the requested pose
slots. -/
def jfkImplRow (r : Robot) (req : List Link) (angles : ℕ → ℝ) :
    List (ℕ → Vec6) × List (Option SE3k) :=
  let poses := fkHelperRow r (computePoseIds req) angles
  let jposes := jfkJposesRow r (computePoseIds req) poses
  (req.map fun L => fun c =>
      if c ∈ L.angle_ids then
        se3.adjAct (se3.inverse ((poses L.id).getD se3.one)) (jposes c)
      else 0,
   req.map fun L => poses L.id)

/-- The dot product of two 6-vectors: one entry of
`jposes[:, :, sel].transpose(1, 2) @ temp`. -/
def dot6 (x y : Vec6) : ℝ :=
  x 0 * y 0 + x 1 * y 1 + x 2 * y 2 + x 3 * y 3 + x 4 * y 4 + x 5 * y 5

/-- The `(3, 4)` matrix `torch.cat((grad_output @ ret.transpose(1, 2),
grad_output[:, :, 3:]), dim=-1)` fed to `se3.project` in
`ForwardKinematics.backward` (`forward_kinematics.py` lines 113-118). -/
def bwCat (gradOutput : AMat) (ret : SE3k) : AMat :=
  Matrix.of fun i k =>
    if (k : ℕ) < 3 then (gradOutput * (se3.toMat ret).transpose) i k
    else gradOutput i 3

/-- `ForwardKinematics.backward` on one batch row (`forward_kinematics.py`
lines 104-123): recompute the forward poses and `jposes` (the autograd `ctx`
caches the helper results of the same inputs), then for every requested link
accumulate `jposes[:, :, angle_ids]^T @ se3.project(...)` into the `dof`-long
gradient at that link's `angle_ids`. -/
def fkBackwardRow (r : Robot) (req : List Link) (angles : ℕ → ℝ)
    (gradOutputs : List AMat) : ℕ → ℝ :=
  let poses := fkHelperRow r (computePoseIds req) angles
  let jposes := jfkJposesRow r (computePoseIds req) poses
  (req.zip gradOutputs).foldl
    (fun grad Lg =>
      let ret := (poses Lg.1.id).getD se3.one
      let temp := se3.project (bwCat Lg.2 ret)
      fun c => grad c + if c ∈ Lg.1.angle_ids then dot6 (jposes c) temp else 0)
    (fun _ => 0)

/-- The world pose of a link as a function of its id alone, by recursion over
the parent pointers (with an explicit fuel argument; under `WellFormed`
parent ids strictly decrease, so fuel `id` suffices).  This is the
denotational value against which the imperative traversal is proved. -/
def chainPoseAux (r : Robot) (angles : ℕ → ℝ) : ℕ → ℕ → SE3k
  | 0, _ => se3.one
  | fuel + 1, id =>
    match (r.linkAt id).parent with
    | none => se3.one
    | some j => se3.compose (chainPoseAux r angles fuel j.parent) (jointRel r j angles)

/-- The world pose of link `id` determined by the chain topology. -/
def chainPose (r : Robot) (angles : ℕ → ℝ) (id : ℕ) : SE3k :=
  chainPoseAux r angles id id

/-- The ordered list of joints on the path from the root to link `id`
(fuel-based recursion over the parent pointers). -/
def rootPathAux (r : Robot) : ℕ → ℕ → List Joint
  | 0, _ => []
  | fuel + 1, id =>
    match (r.linkAt id).parent with
    | none => []
    | some j => rootPathAux r fuel j.parent ++ [j]

/-- The joints on the root-to-link path of link `id`. -/
def rootPath (r : Robot) (id : ℕ) : List Joint :=
  rootPathAux r id id

/-- The world pose of the last link of a root-to-link path of (joint, angle)
pairs: the composition of the joints' relative poses from the identity.  Used
to state the fixed-joint-folding claim, whose subject is the pre-traversal
re-parenting of `Robot.from_urdf_file` (`robot.py` lines 106-114). -/
def pathPose (p : List (Joint × ℝ)) : SE3k :=
  p.foldl (fun g jθ => se3.compose g (jθ.1.relativePose jθ.2)) se3.one

/-- `subjoint.set_origin(se3.compose(joint.origin, subjoint.origin))`
(`robot.py` line 113): pre-compose a fixed joint's origin into a re-parented
joint's origin. -/
def foldOrigin (f j : Joint) : Joint :=
  { j with origin := se3.compose f.origin j.origin }

/-! ### Concrete example chains (used to witness the theorems below) -/

/-- A revolute-Z joint with identity origin, assigned id 0, linking the root
(link 0) to link 1. -/
def jZ0 : Joint := ⟨"joint0", 0, 0, 1, se3.one, .revoluteZ⟩

/-- The root link of the example chains. -/
def rootLink : Link := ⟨"base", 0, none, [], []⟩

/-- The child link of `jZ0`: ancestors `[0]`, angle_ids `[0]`. -/
def linkZ1 : Link := ⟨"link1", 1, some jZ0, [0], [0]⟩

/-- A single-joint revolute-Z chain with identity origin. -/
def robotZ : Robot := ⟨"robotZ", [rootLink, linkZ1], 1⟩

/-- A fixed joint with identity origin (example). -/
def fixJ : Joint := ⟨"fix", 1, 1, 2, se3.one, .fixed⟩

/-- A prismatic-X joint with identity origin (example). -/
def jPx : Joint := ⟨"px", 0, 0, 1, se3.one, .prismaticX⟩

/-! ### Algebraic facts about the transform operations -/

theorem se3.compose_assoc (a b c : SE3k) :
    se3.compose (se3.compose a b) c = se3.compose a (se3.compose b c) := by
  ext i j
  · simp [se3.compose, Matrix.mul_assoc]
  · simp [se3.compose, Matrix.mulVec_add, Matrix.mulVec_mulVec, add_assoc]

theorem se3.one_compose (g : SE3k) : se3.compose se3.one g = g := by
  ext i j
  · simp [se3.compose, se3.one]
  · simp [se3.compose, se3.one, Matrix.one_mulVec]

/-- A fixed joint's `relative_pose` is its constant origin. -/
theorem Joint.relativePose_fixed (j : Joint) (h : j.jtype.isFixed = true) (θ : ℝ) :
    j.relativePose θ = j.origin := by
  cases j with
  | mk name id parent child origin jtype =>
    cases jtype <;> simp_all [JointType.isFixed, Joint.relativePose]

/-- Pre-composing a transform into a joint's origin pre-composes it into the
joint's relative pose, for every joint variant and every angle. -/
theorem Joint.relativePose_foldOrigin (f j : Joint) (θ : ℝ) :
    (foldOrigin f j).relativePose θ = se3.compose f.origin (j.relativePose θ) := by
  cases j with
  | mk name id parent child origin jtype =>
    cases jtype with
    | fixed => rfl
    | revolute ax =>
      ext i k
      · simp [foldOrigin, Joint.relativePose, se3.compose, Matrix.mul_assoc]
      · simp [foldOrigin, Joint.relativePose, se3.compose]
    | revoluteX =>
      ext i k
      · simp [foldOrigin, Joint.relativePose, se3.compose, Matrix.mul_assoc]
      · simp [foldOrigin, Joint.relativePose, se3.compose]
    | revoluteY =>
      ext i k
      · simp [foldOrigin, Joint.relativePose, se3.compose, Matrix.mul_assoc]
      · simp [foldOrigin, Joint.relativePose, se3.compose]
    | revoluteZ =>
      ext i k
      · simp [foldOrigin, Joint.relativePose, se3.compose, Matrix.mul_assoc]
      · simp [foldOrigin, Joint.relativePose, se3.compose]
    | prismatic ax =>
      ext i k
      · simp [foldOrigin, Joint.relativePose, se3.compose]
      · simp [foldOrigin, Joint.relativePose, se3.compose, Matrix.mulVec_add,
          Matrix.mulVec_mulVec, add_assoc]
    | prismaticX =>
      ext i k
      · simp [foldOrigin, Joint.relativePose, se3.compose]
      · simp [foldOrigin, Joint.relativePose, se3.compose, Matrix.mulVec,
          Matrix.dotProduct, Matrix.mul_apply, Fin.sum_univ_three]
        ring
    | prismaticY =>
      ext i k
      · simp [foldOrigin, Joint.relativePose, se3.compose]
      · simp [foldOrigin, Joint.relativePose, se3.compose, Matrix.mulVec,
          Matrix.dotProduct, Matrix.mul_apply, Fin.sum_univ_three]
        ring
    | prismaticZ =>
      ext i k
      · simp [foldOrigin, Joint.relativePose, se3.compose]
      · simp [foldOrigin, Joint.relativePose, se3.compose, Matrix.mulVec,
          Matrix.dotProduct, Matrix.mul_apply, Fin.sum_univ_three]
        ring

theorem cos_abs_eq (θ : ℝ) : Real.cos |θ| = Real.cos θ := by
  rcases abs_cases θ with ⟨h, _⟩ | ⟨h, _⟩
  · rw [h]
  · rw [h, Real.cos_neg]

theorem sin_abs_div_abs (θ : ℝ) :
    Real.sin |θ| / |θ| = Real.sin θ / θ := by
  rcases abs_cases θ with ⟨h, _⟩ | ⟨h, _⟩
  · rw [h]
  · rw [h, Real.sin_neg, neg_div_neg_eq]

/-- The generic exponential map along the unit X axis agrees with the
closed-form `RevoluteJointX` rotation. -/
theorem exp_unit_x (θ : ℝ) : so3.exp (θ • ![1, 0, 0]) = rotX θ := by
  rcases eq_or_ne θ 0 with h0 | hne
  · subst h0
    have h1 : (0 : ℝ) • ![(1 : ℝ), 0, 0] = (0 : Vec3) := zero_smul _ _
    have h2 : so3.exp (0 : Vec3) = 1 := by simp [so3.exp]
    rw [h1, h2]
    ext i k
    fin_cases i <;> fin_cases k <;>
      simp [rotX, Matrix.one_apply, Matrix.vecHead, Matrix.vecTail]
  · have hsum : ((θ • ![(1 : ℝ), 0, 0]) 0) ^ 2 + ((θ • ![(1 : ℝ), 0, 0]) 1) ^ 2 +
        ((θ • ![(1 : ℝ), 0, 0]) 2) ^ 2 = θ ^ 2 := by
      norm_num [Matrix.vecHead, Matrix.vecTail]
    rw [so3.exp]
    simp only [hsum, Real.sqrt_sq_eq_abs, abs_eq_zero, hne, if_false]
    ext i k
    fin_cases i <;> fin_cases k <;>
      simp [se3.hat, rotX, Matrix.mul_apply, Fin.sum_univ_three,
        Matrix.one_apply, Matrix.vecHead, Matrix.vecTail, cos_abs_eq,
        sin_abs_div_abs, sq_abs] <;>
      field_simp <;> ring

/-- The generic exponential map along the unit Y axis agrees with the
closed-form `RevoluteJointY` rotation. -/
theorem exp_unit_y (θ : ℝ) : so3.exp (θ • ![0, 1, 0]) = rotY θ := by
  rcases eq_or_ne θ 0 with h0 | hne
  · subst h0
    have h1 : (0 : ℝ) • ![(0 : ℝ), 1, 0] = (0 : Vec3) := zero_smul _ _
    have h2 : so3.exp (0 : Vec3) = 1 := by simp [so3.exp]
    rw [h1, h2]
    ext i k
    fin_cases i <;> fin_cases k <;>
      simp [rotY, Matrix.one_apply, Matrix.vecHead, Matrix.vecTail]
  · have hsum : ((θ • ![(0 : ℝ), 1, 0]) 0) ^ 2 + ((θ • ![(0 : ℝ), 1, 0]) 1) ^ 2 +
        ((θ • ![(0 : ℝ), 1, 0]) 2) ^ 2 = θ ^ 2 := by
      norm_num [Matrix.vecHead, Matrix.vecTail]
    rw [so3.exp]
    simp only [hsum, Real.sqrt_sq_eq_abs, abs_eq_zero, hne, if_false]
    ext i k
    fin_cases i <;> fin_cases k <;>
      simp [se3.hat, rotY, Matrix.mul_apply, Fin.sum_univ_three,
        Matrix.one_apply, Matrix.vecHead, Matrix.vecTail, cos_abs_eq,
        sin_abs_div_abs, sq_abs] <;>
      field_simp <;> ring

/-- The generic exponential map along the unit Z axis agrees with the
closed-form `RevoluteJointZ` rotation. -/
theorem exp_unit_z (θ : ℝ) : so3.exp (θ • ![0, 0, 1]) = rotZ θ := by
  rcases eq_or_ne θ 0 with h0 | hne
  · subst h0
    have h1 : (0 : ℝ) • ![(0 : ℝ), 0, 1] = (0 : Vec3) := zero_smul _ _
    have h2 : so3.exp (0 : Vec3) = 1 := by simp [so3.exp]
    rw [h1, h2]
    ext i k
    fin_cases i <;> fin_cases k <;>
      simp [rotZ, Matrix.one_apply, Matrix.vecHead, Matrix.vecTail]
  · have hsum : ((θ • ![(0 : ℝ), 0, 1]) 0) ^ 2 + ((θ • ![(0 : ℝ), 0, 1]) 1) ^ 2 +
        ((θ • ![(0 : ℝ), 0, 1]) 2) ^ 2 = θ ^ 2 := by
      norm_num [Matrix.vecHead, Matrix.vecTail]
    rw [so3.exp]
    simp only [hsum, Real.sqrt_sq_eq_abs, abs_eq_zero, hne, if_false]
    ext i k
    fin_cases i <;> fin_cases k <;>
      simp [se3.hat, rotZ, Matrix.mul_apply, Fin.sum_univ_three,
        Matrix.one_apply, Matrix.vecHead, Matrix.vecTail, cos_abs_eq,
        sin_abs_div_abs, sq_abs] <;>
      field_simp <;> ring

/-! ### Claim C4: fixed-joint folding preserves descendant poses -/

/-- C4: folding a fixed joint into its successor joint (pre-composing the
fixed joint's origin into the re-parented joint's origin, `robot.py` lines
106-114) leaves the world pose of the immediate child and of every further
descendant link unchanged: along any root path `pre ++ fixed ++ joint ++
post` the folded and unfolded chains produce exactly equal world poses. -/
theorem fold_fixed_joint_preserves_descendant_poses
    (pre post : List (Joint × ℝ)) (f j : Joint) (θf θ : ℝ)
    (hf : f.jtype.isFixed = true) :
    pathPose (pre ++ (f, θf) :: (j, θ) :: post) =
      pathPose (pre ++ (foldOrigin f j, θ) :: post) := by
  unfold pathPose
  rw [List.foldl_append, List.foldl_append]
  simp only [List.foldl_cons]
  congr 1
  rw [Joint.relativePose_fixed f hf, Joint.relativePose_foldOrigin]
  exact se3.compose_assoc _ _ _

/-- Witness for C4 on a concrete two-joint path. -/
theorem fold_fixed_joint_preserves_descendant_poses_witness :
    fixJ.jtype.isFixed = true ∧
      pathPose ([] ++ (fixJ, 0) :: (jZ0, 0) :: []) =
        pathPose ([] ++ (foldOrigin fixJ jZ0, 0) :: []) :=
  ⟨rfl, fold_fixed_joint_preserves_descendant_poses [] [] fixJ jZ0 0 0 rfl⟩

/-! ### Claim C6: principal-axis variants match the generic joints -/

/-- C6: for every origin and every angle, each principal-axis joint variant's
trigonometric closed-form `relative_pose` equals the generic variant's
`relative_pose` with the corresponding unit axis: `RevoluteJointX/Y/Z` match
`RevoluteJoint` with axis `(1,0,0)`/`(0,1,0)`/`(0,0,1)` evaluated through the
exponential map, and `PrismaticJointX/Y/Z` match `PrismaticJoint` with the
same unit axes. -/
theorem principal_axis_variants_match_generic (j : Joint) (θ : ℝ) :
    (j.jtype = .revoluteX →
      j.relativePose θ = Joint.relativePose { j with jtype := .revolute ![1, 0, 0] } θ) ∧
    (j.jtype = .revoluteY →
      j.relativePose θ = Joint.relativePose { j with jtype := .revolute ![0, 1, 0] } θ) ∧
    (j.jtype = .revoluteZ →
      j.relativePose θ = Joint.relativePose { j with jtype := .revolute ![0, 0, 1] } θ) ∧
    (j.jtype = .prismaticX →
      j.relativePose θ = Joint.relativePose { j with jtype := .prismatic ![1, 0, 0] } θ) ∧
    (j.jtype = .prismaticY →
      j.relativePose θ = Joint.relativePose { j with jtype := .prismatic ![0, 1, 0] } θ) ∧
    (j.jtype = .prismaticZ →
      j.relativePose θ = Joint.relativePose { j with jtype := .prismatic ![0, 0, 1] } θ) := by
  refine ⟨fun h => ?_, fun h => ?_, fun h => ?_, fun h => ?_, fun h => ?_, fun h => ?_⟩
  · simp only [Joint.relativePose, h, exp_unit_x]
  · simp only [Joint.relativePose, h, exp_unit_y]
  · simp only [Joint.relativePose, h, exp_unit_z]
  · ext i k
    · simp [Joint.relativePose, h]
    · simp [Joint.relativePose, h, Matrix.mulVec, Matrix.dotProduct,
        Fin.sum_univ_three, Matrix.vecHead, Matrix.vecTail]
      ring
  · ext i k
    · simp [Joint.relativePose, h]
    · simp [Joint.relativePose, h, Matrix.mulVec, Matrix.dotProduct,
        Fin.sum_univ_three, Matrix.vecHead, Matrix.vecTail]
      ring
  · ext i k
    · simp [Joint.relativePose, h]
    · simp [Joint.relativePose, h, Matrix.mulVec, Matrix.dotProduct,
        Fin.sum_univ_three, Matrix.vecHead, Matrix.vecTail]
      ring

/-- Witness for C6: the revolute-Z and prismatic-X equivalences at a concrete
joint and angle. -/
theorem principal_axis_variants_match_generic_witness :
    Joint.relativePose jZ0 1 =
        Joint.relativePose { jZ0 with jtype := .revolute ![0, 0, 1] } 1 ∧
      Joint.relativePose jPx 1 =
        Joint.relativePose { jPx with jtype := .prismatic ![1, 0, 0] } 1 :=
  ⟨(principal_axis_variants_match_generic jZ0 1).2.2.1 rfl,
   (principal_axis_variants_match_generic jPx 1).2.2.2.1 rfl⟩

/-! ### Claim C10: prismatic relative poses keep the origin rotation -/

/-- C10: for every prismatic joint variant (generic or principal-axis) and
every angle, `relative_pose` has rotation block exactly equal to the joint's
fixed origin rotation block; only the translation column depends on the
angle. -/
theorem prismatic_relative_pose_rotation_constant (j : Joint) (θ : ℝ)
    (h : j.jtype.isPrismatic = true) :
    (j.relativePose θ).rot = j.origin.rot := by
  cases j with
  | mk name id parent child origin jtype =>
    cases jtype <;> simp_all [JointType.isPrismatic, Joint.relativePose]

/-- Witness for C10 at a concrete prismatic joint and angle. -/
theorem prismatic_relative_pose_rotation_constant_witness :
    jPx.jtype.isPrismatic = true ∧ (jPx.relativePose 2).rot = jPx.origin.rot :=
  ⟨rfl, prismatic_relative_pose_rotation_constant jPx 2 rfl⟩

/-! ### Claim C7: the single revolute-Z chain -/

/-- C7: on the chain with a single revolute-Z joint whose origin is the
identity, the forward pass at angle `θ` assigns link 1 the world pose whose
rotation block is the standard planar rotation by `θ` about Z (cos/−sin over
sin/cos in the upper-left 2x2 and a 1 at entry (2,2)) with zero translation;
in particular at `θ = π/2` the link's local +X axis maps to world +Y. -/
theorem single_revolute_z_chain_pose :
    (∀ θ : ℝ, fkHelperRow robotZ (computePoseIds [linkZ1]) (fun _ => θ) 1 =
      some ⟨!![Real.cos θ, -Real.sin θ, 0;
               Real.sin θ, Real.cos θ, 0;
               0, 0, 1], 0⟩) ∧
    ∃ g : SE3k,
      fkHelperRow robotZ (computePoseIds [linkZ1]) (fun _ => Real.pi / 2) 1 = some g ∧
        g.rot.mulVec ![1, 0, 0] = ![0, 1, 0] := by
  have hpid : computePoseIds [linkZ1] = [0, 1] := by decide
  have hrow : ∀ θ : ℝ, fkHelperRow robotZ (computePoseIds [linkZ1]) (fun _ => θ) 1 =
      some ⟨rotZ θ, 0⟩ := by
    intro θ
    rw [hpid]
    simp [fkHelperRow, fkLoop, fkStep, robotZ, Robot.linkAt, rootLink, linkZ1, jZ0,
      jointRel, Joint.relativePose, se3.compose, se3.one, Function.update,
      Matrix.mulVec_zero]
  refine ⟨fun θ => hrow θ, ⟨⟨rotZ (Real.pi / 2), 0⟩, hrow _, ?_⟩⟩
  funext i
  fin_cases i <;>
    simp [rotZ, Matrix.mulVec, Matrix.dotProduct, Fin.sum_univ_three,
      Matrix.vecHead, Matrix.vecTail]

/-! ### Structural lemmas about well-formed chains -/

theorem linkAt_id (r : Robot) (hwf : WellFormed r) (i : ℕ)
    (hi : i < r.links.length) : (r.linkAt i).id = i := by
  rw [Robot.linkAt, List.getD_eq_getElem r.links defaultLink hi]
  exact hwf.link_ids i hi

theorem mem_links_linkAt (r : Robot) (hwf : WellFormed r) {L : Link}
    (h : L ∈ r.links) : L.id < r.links.length ∧ r.linkAt L.id = L := by
  rcases List.mem_iff_get.mp h with ⟨n, hn⟩
  have hid : L.id = n.1 := by rw [← hn]; exact hwf.link_ids n.1 n.2
  constructor
  · rw [hid]; exact n.2
  · rw [hid, Robot.linkAt, List.getD_eq_getElem r.links defaultLink n.2]
    exact hn

/-- Every ancestor id of a link is smaller than the link's id, and the
ancestor list is closed under taking the parent link. -/
theorem anc_mem_spec (r : Robot) (hwf : WellFormed r) :
    ∀ i : ℕ, i < r.links.length → ∀ a ∈ (r.linkAt i).ancestors,
      a < i ∧ ∀ j : Joint, (r.linkAt a).parent = some j →
        j.parent ∈ (r.linkAt i).ancestors := by
  intro i
  induction i using Nat.strong_induction_on with
  | _ i ih =>
    intro hi a ha
    rcases Nat.eq_zero_or_pos i with h0 | hpos
    · rw [h0, hwf.root_anc] at ha
      exact absurd ha (List.not_mem_nil a)
    · obtain ⟨j, hj, hjlt, _⟩ := hwf.parent_spec i hpos hi
      have hrec := hwf.anc_rec i j hi hj
      rw [hrec] at ha
      rcases List.mem_append.mp ha with hin | heq
      · have hplen : j.parent < r.links.length := lt_trans hjlt hi
        obtain ⟨hlt, hcl⟩ := ih j.parent hjlt hplen a hin
        refine ⟨lt_trans hlt hjlt, fun j' hj' => ?_⟩
        rw [hrec]
        exact List.mem_append.mpr (Or.inl (hcl j' hj'))
      · have haeq : a = j.parent := List.mem_singleton.mp heq
        refine ⟨haeq ▸ hjlt, fun j' hj' => ?_⟩
        have hrec' := hwf.anc_rec a j' (lt_of_lt_of_le (haeq ▸ hjlt) (le_of_lt hi)) hj'
        rw [hrec, ← haeq, hrec']
        exact List.mem_append.mpr
          (Or.inl (List.mem_append.mpr (Or.inr (List.mem_singleton.mpr rfl))))

/-- The root link id 0 is an ancestor of every non-root link. -/
theorem zero_mem_ancestors (r : Robot) (hwf : WellFormed r) :
    ∀ i : ℕ, 0 < i → i < r.links.length → 0 ∈ (r.linkAt i).ancestors := by
  intro i
  induction i using Nat.strong_induction_on with
  | _ i ih =>
    intro hpos hi
    obtain ⟨j, hj, hjlt, _⟩ := hwf.parent_spec i hpos hi
    rw [hwf.anc_rec i j hi hj]
    rcases Nat.eq_zero_or_pos j.parent with h0 | hp
    · exact List.mem_append.mpr (Or.inr (by rw [h0]; exact List.mem_singleton.mpr rfl))
    · exact List.mem_append.mpr
        (Or.inl (ih j.parent hjlt hp (lt_trans hjlt hi)))

theorem mem_computePoseIds {req : List Link} {x : ℕ} :
    x ∈ computePoseIds req ↔
      (∃ L ∈ req, x ∈ L.ancestors) ∨ ∃ L ∈ req, L.id = x := by
  rw [computePoseIds]
  rw [(List.perm_insertionSort (· ≤ ·) _).mem_iff, List.mem_dedup, List.mem_append]
  constructor
  · rintro (hx | hx)
    · rcases List.mem_flatten.mp hx with ⟨s, hs, hxs⟩
      rcases List.mem_map.mp hs with ⟨L, hL, rfl⟩
      exact Or.inl ⟨L, hL, hxs⟩
    · rcases List.mem_map.mp hx with ⟨L, hL, h⟩
      exact Or.inr ⟨L, hL, h⟩
  · rintro (⟨L, hL, hx⟩ | ⟨L, hL, hx⟩)
    · exact Or.inl (List.mem_flatten.mpr ⟨L.ancestors, List.mem_map.mpr ⟨L, hL, rfl⟩, hx⟩)
    · exact Or.inr (List.mem_map.mpr ⟨L, hL, hx⟩)

theorem computePoseIds_pairwise (req : List Link) :
    (computePoseIds req).Pairwise (· < ·) := by
  have hs : (computePoseIds req).Pairwise (· ≤ ·) :=
    List.sorted_insertionSort (· ≤ ·) _
  have hn : (computePoseIds req).Nodup :=
    (List.perm_insertionSort (· ≤ ·) _).nodup_iff.mpr (List.nodup_dedup _)
  exact (hs.and hn).imp fun h => lt_of_le_of_ne h.1 h.2

/-- In a strictly ascending list containing 0, the head is 0 and the tail is
the positive members. -/
theorem sorted_zero_cons {l : List ℕ} (hp : l.Pairwise (· < ·)) (h0 : 0 ∈ l) :
    l = 0 :: l.tail ∧ ∀ x ∈ l.tail, 0 < x ∧ x ∈ l := by
  cases l with
  | nil => exact absurd h0 (List.not_mem_nil 0)
  | cons a t =>
    have hall : ∀ x ∈ t, a < x := (List.pairwise_cons.mp hp).1
    have ha : a = 0 := by
      rcases List.mem_cons.mp h0 with h | h
      · exact h.symm
      · exact absurd (hall 0 h) (Nat.not_lt_zero a)
    subst ha
    exact ⟨rfl, fun x hx => ⟨hall x hx, List.mem_cons_of_mem 0 hx⟩⟩

/-- Every member of `pose_ids` is a valid link id, and `pose_ids` is closed
under taking the parent link of a member. -/
theorem computePoseIds_closed (r : Robot) (hwf : WellFormed r) {req : List Link}
    (hreq : ∀ L ∈ req, L ∈ r.links) :
    ∀ x ∈ computePoseIds req, x < r.links.length ∧
      ∀ j : Joint, (r.linkAt x).parent = some j → j.parent ∈ computePoseIds req := by
  intro x hx
  rcases mem_computePoseIds.mp hx with ⟨L, hL, hxa⟩ | ⟨L, hL, hxid⟩
  · obtain ⟨hLlen, hLat⟩ := mem_links_linkAt r hwf (hreq L hL)
    have hxa' : x ∈ (r.linkAt L.id).ancestors := by rw [hLat]; exact hxa
    obtain ⟨hlt, hcl⟩ := anc_mem_spec r hwf L.id hLlen x hxa'
    refine ⟨lt_trans hlt hLlen, fun j hj => ?_⟩
    have := hcl j hj
    rw [hLat] at this
    exact mem_computePoseIds.mpr (Or.inl ⟨L, hL, this⟩)
  · obtain ⟨hLlen, hLat⟩ := mem_links_linkAt r hwf (hreq L hL)
    subst hxid
    refine ⟨hLlen, fun j hj => ?_⟩
    have hpos : 0 < L.id := by
      rcases Nat.eq_zero_or_pos L.id with h0 | h
      · rw [h0] at hj
        rw [hwf.root_parent] at hj
        exact absurd hj (by simp)
      · exact h
    have hrec := hwf.anc_rec L.id j hLlen hj
    have : j.parent ∈ (r.linkAt L.id).ancestors := by
      rw [hrec]; exact List.mem_append.mpr (Or.inr (List.mem_singleton.mpr rfl))
    rw [hLat] at this
    exact mem_computePoseIds.mpr (Or.inl ⟨L, hL, this⟩)

/-- If `pose_ids` is nonempty it contains the root id 0. -/
theorem zero_mem_computePoseIds (r : Robot) (hwf : WellFormed r) {req : List Link}
    (hreq : ∀ L ∈ req, L ∈ r.links) {x : ℕ} (hx : x ∈ computePoseIds req) :
    0 ∈ computePoseIds req := by
  rcases mem_computePoseIds.mp hx with ⟨L, hL, _⟩ | ⟨L, hL, _⟩ <;>
  · obtain ⟨hLlen, hLat⟩ := mem_links_linkAt r hwf (hreq L hL)
    rcases Nat.eq_zero_or_pos L.id with h0 | hpos
    · exact mem_computePoseIds.mpr (Or.inr ⟨L, hL, h0⟩)
    · have := zero_mem_ancestors r hwf L.id hpos hLlen
      rw [hLat] at this
      exact mem_computePoseIds.mpr (Or.inl ⟨L, hL, this⟩)

/-! ### The denotational chain pose and the traversal loop -/

theorem chainPoseAux_zero (r : Robot) (hwf : WellFormed r) (angles : ℕ → ℝ)
    (fuel : ℕ) : chainPoseAux r angles fuel 0 = se3.one := by
  cases fuel with
  | zero => rfl
  | succ f => rw [chainPoseAux, hwf.root_parent]

theorem chainPoseAux_fuel (r : Robot) (hwf : WellFormed r) (angles : ℕ → ℝ) :
    ∀ i : ℕ, i < r.links.length → ∀ f1 f2 : ℕ, i ≤ f1 → i ≤ f2 →
      chainPoseAux r angles f1 i = chainPoseAux r angles f2 i := by
  intro i
  induction i using Nat.strong_induction_on with
  | _ i ih =>
    intro hi f1 f2 hf1 hf2
    rcases Nat.eq_zero_or_pos i with h0 | hpos
    · subst h0
      rw [chainPoseAux_zero r hwf angles f1, chainPoseAux_zero r hwf angles f2]
    · obtain ⟨j, hj, hjlt, _⟩ := hwf.parent_spec i hpos hi
      cases f1 with
      | zero => omega
      | succ f1' =>
        cases f2 with
        | zero => omega
        | succ f2' =>
          simp only [chainPoseAux, hj]
          rw [ih j.parent hjlt (lt_trans hjlt hi) f1' f2' (by omega) (by omega)]

/-- Unfolding `chainPose` one step along the parent joint. -/
theorem chainPose_step (r : Robot) (hwf : WellFormed r) (angles : ℕ → ℝ)
    (i : ℕ) (hi : i < r.links.length) (j : Joint)
    (hj : (r.linkAt i).parent = some j) :
    chainPose r angles i =
      se3.compose (chainPose r angles j.parent) (jointRel r j angles) := by
  have hpos : 0 < i := by
    rcases Nat.eq_zero_or_pos i with h0 | h
    · rw [h0, hwf.root_parent] at hj
      exact absurd hj (by simp)
    · exact h
  obtain ⟨j', hj', hjlt, _⟩ := hwf.parent_spec i hpos hi
  have hjj : j' = j := by rw [hj] at hj'; exact (Option.some_injective _ hj').symm
  subst hjj
  cases i with
  | zero => omega
  | succ i' =>
    rw [chainPose]
    simp only [chainPoseAux, hj]
    rw [chainPose,
      chainPoseAux_fuel r hwf angles j'.parent (lt_trans hjlt hi) i' j'.parent
        (by omega) (le_refl _)]

theorem chainPose_zero (r : Robot) (angles : ℕ → ℝ) :
    chainPose r angles 0 = se3.one := rfl

theorem fkStep_apply_ne (r : Robot) (angles : ℕ → ℝ) (poses : ℕ → Option SE3k)
    (id x : ℕ) (hx : x ≠ id) : fkStep r angles poses id x = poses x := by
  rcases hp : (r.linkAt id).parent with _ | j
  · simp only [fkStep, hp]
  · rcases hq : poses j.parent with _ | p
    · simp only [fkStep, hp, hq]
    · simp only [fkStep, hp, hq]
      exact Function.update_noteq hx _ poses

theorem fkLoop_apply_not_mem (r : Robot) (angles : ℕ → ℝ) :
    ∀ (l : List ℕ) (poses : ℕ → Option SE3k) (x : ℕ), x ∉ l →
      fkLoop r angles l poses x = poses x := by
  intro l
  induction l with
  | nil => intro poses x _; rfl
  | cons id rest ih =>
    intro poses x hx
    rw [fkLoop, ih _ x (fun h => hx (List.mem_cons_of_mem id h)),
      fkStep_apply_ne r angles poses id x (fun h => hx (h ▸ List.mem_cons_self id rest))]

/-- The propagation loop writes every visited slot with the denotational
chain pose, provided the list is strictly ascending and every visited link's
parent pose is either visited too or already available. -/
theorem fkLoop_char (r : Robot) (hwf : WellFormed r) (angles : ℕ → ℝ) :
    ∀ (l : List ℕ) (poses : ℕ → Option SE3k),
      l.Pairwise (· < ·) →
      (∀ i ∈ l, 0 < i ∧ i < r.links.length) →
      (∀ i ∈ l, ∀ j : Joint, (r.linkAt i).parent = some j →
        j.parent ∈ l ∨ poses j.parent = some (chainPose r angles j.parent)) →
      ∀ i ∈ l, fkLoop r angles l poses i = some (chainPose r angles i) := by
  intro l
  induction l with
  | nil => intro poses _ _ _ i hi; exact absurd hi (List.not_mem_nil i)
  | cons id rest ih =>
    intro poses hpair hbound hpar i hi
    have hlt : ∀ x ∈ rest, id < x := (List.pairwise_cons.mp hpair).1
    obtain ⟨hidpos, hidlen⟩ := hbound id (List.mem_cons_self id rest)
    obtain ⟨j, hj, hjlt, _⟩ := hwf.parent_spec id hidpos hidlen
    have hpp : poses j.parent = some (chainPose r angles j.parent) := by
      rcases hpar id (List.mem_cons_self id rest) j hj with hin | hp
      · rcases List.mem_cons.mp hin with h | h
        · omega
        · exact absurd (hlt j.parent h) (by omega)
      · exact hp
    have hstep : fkStep r angles poses id =
        Function.update poses id (some (chainPose r angles id)) := by
      simp only [fkStep, hj, hpp]
      rw [chainPose_step r hwf angles id hidlen j hj]
    rw [fkLoop, hstep]
    rcases List.mem_cons.mp hi with rfl | hmem
    · rw [fkLoop_apply_not_mem r angles rest _ i (fun h => absurd (hlt i h) (lt_irrefl i))]
      rw [Function.update_same]
    · refine ih _ (List.pairwise_cons.mp hpair).2
        (fun x hx => hbound x (List.mem_cons_of_mem id hx)) ?_ i hmem
      intro i' hi' j' hj'
      rcases hpar i' (List.mem_cons_of_mem id hi') j' hj' with hin | hp
      · rcases List.mem_cons.mp hin with h | h
        · refine Or.inr ?_
          rw [h, Function.update_same, ← h]
        · exact Or.inl h
      · refine Or.inr ?_
        rcases eq_or_ne j'.parent id with h | h
        · rw [h, Function.update_same]
        · rw [Function.update_noteq h _ poses]
          exact hp

/-- Master characterization of the forward traversal: every slot that is the
root or a member of `pose_ids` ends up holding the denotational chain pose. -/
theorem fk_poses_char (r : Robot) (hwf : WellFormed r) {req : List Link}
    (hreq : ∀ L ∈ req, L ∈ r.links) (angles : ℕ → ℝ) :
    ∀ x : ℕ, x = 0 ∨ x ∈ computePoseIds req →
      fkHelperRow r (computePoseIds req) angles x =
        some (chainPose r angles x) := by
  intro x hx
  by_cases h0 : 0 ∈ computePoseIds req
  · obtain ⟨hcons, htail⟩ := sorted_zero_cons (computePoseIds_pairwise req) h0
    have htp : (computePoseIds req).tail.Pairwise (· < ·) := by
      have hp := computePoseIds_pairwise req
      rw [hcons] at hp
      exact (List.pairwise_cons.mp hp).2
    have hbound : ∀ i ∈ (computePoseIds req).tail, 0 < i ∧ i < r.links.length :=
      fun i hi =>
        ⟨(htail i hi).1, (computePoseIds_closed r hwf hreq i (htail i hi).2).1⟩
    have hpar : ∀ i ∈ (computePoseIds req).tail, ∀ j : Joint,
        (r.linkAt i).parent = some j →
        j.parent ∈ (computePoseIds req).tail ∨
          Function.update (fun _ => none) 0 (some se3.one) j.parent =
            some (chainPose r angles j.parent) := by
      intro i hi j hj
      have hmem : j.parent ∈ computePoseIds req :=
        (computePoseIds_closed r hwf hreq i (htail i hi).2).2 j hj
      rcases Nat.eq_zero_or_pos j.parent with hz | hpos
      · refine Or.inr ?_
        rw [hz, Function.update_same, chainPose_zero]
      · refine Or.inl ?_
        rw [hcons] at hmem
        rcases List.mem_cons.mp hmem with h | h
        · omega
        · exact h
    have hroot : fkHelperRow r (computePoseIds req) angles 0 =
        some (chainPose r angles 0) := by
      have hnt : (0 : ℕ) ∉ (computePoseIds req).tail :=
        fun h => absurd (htail 0 h).1 (lt_irrefl 0)
      rw [fkHelperRow, fkLoop_apply_not_mem r angles _ _ 0 hnt,
        Function.update_same, chainPose_zero]
    rcases hx with rfl | hx
    · exact hroot
    · rcases eq_or_ne x 0 with rfl | hxne
      · exact hroot
      · have hxt : x ∈ (computePoseIds req).tail := by
          rw [hcons] at hx
          rcases List.mem_cons.mp hx with h | h
          · exact absurd h hxne
          · exact h
        exact fkLoop_char r hwf angles (computePoseIds req).tail _ htp hbound hpar x hxt
  · rcases hx with rfl | hx
    · have hnt : (0 : ℕ) ∉ (computePoseIds req).tail :=
        fun h => h0 ((computePoseIds req).mem_of_mem_tail h)
      rw [fkHelperRow, fkLoop_apply_not_mem r angles _ _ 0 hnt,
        Function.update_same, chainPose_zero]
    · exact absurd (zero_mem_computePoseIds r hwf hreq hx) h0

/-- The single-joint example chain is well-formed. -/
theorem robotZ_wf : WellFormed robotZ := by
  refine ⟨?_, ?_, rfl, rfl, rfl, ?_, ?_, ?_, ?_, ?_⟩
  · simp [robotZ]
  · intro i h
    rcases i with _ | _ | i
    · rfl
    · rfl
    · exact absurd (show i + 2 < 2 from h) (by omega)
  · intro i h1 h2
    rcases i with _ | _ | i
    · omega
    · exact ⟨jZ0, rfl, Nat.zero_lt_one, rfl⟩
    · exact absurd (show i + 2 < 2 from h2) (by omega)
  · intro i j h hp
    rcases i with _ | _ | i
    · exact absurd hp (by simp [robotZ, Robot.linkAt, rootLink])
    · have hj : jZ0 = j := by
        have hp' : some jZ0 = some j := hp
        exact Option.some_injective _ hp'
      subst hj
      simp [jZ0, JointType.isFixed, robotZ]
    · exact absurd (show i + 2 < 2 from h) (by omega)
  · intro i j h hp
    rcases i with _ | _ | i
    · exact absurd hp (by simp [robotZ, Robot.linkAt, rootLink])
    · have hj : jZ0 = j := Option.some_injective _ hp
      subst hj
      rfl
    · exact absurd (show i + 2 < 2 from h) (by omega)
  · intro i j h hp
    rcases i with _ | _ | i
    · exact absurd hp (by simp [robotZ, Robot.linkAt, rootLink])
    · have hj : jZ0 = j := Option.some_injective _ hp
      subst hj
      rfl
    · exact absurd (show i + 2 < 2 from h) (by omega)
  · exact Nat.one_lt_two

/-! ### Claim C1: the forward pass -/

/-- C1: for every well-formed chain and every `N x dof` angle batch the
forward pass succeeds, assigns the root link (id 0) the identity transform,
and assigns every other computed link (every non-root member of `pose_ids`)
the pose `compose(parent_world_pose, relative_pose)` where the parent's world
pose has itself been resolved (its slot holds `some` pose) and the relative
pose is the parent joint's `relative_pose` call at that joint's angle column
(fixed joints, id at least `dof`, contribute their constant origin). -/
theorem forward_pass_parent_child_compose
    (r : Robot) (hwf : WellFormed r) (req : List Link)
    (hreq : ∀ L ∈ req, L ∈ r.links) (t : RawTensor) (N : ℕ)
    (hshape : t.shape = [N, r.dof]) :
    ∃ rows : List (ℕ → Option SE3k),
      fkHelperChecked r (computePoseIds req) t = .ok rows ∧ rows.length = N ∧
      ∀ n : ℕ, ∀ hn : n < rows.length,
        rows.get ⟨n, hn⟩ 0 = some se3.one ∧
        ∀ id ∈ computePoseIds req, 0 < id →
          ∃ j : Joint, ∃ p : SE3k, (r.linkAt id).parent = some j ∧
            rows.get ⟨n, hn⟩ j.parent = some p ∧
            rows.get ⟨n, hn⟩ id =
              some (se3.compose p (jointRel r j (fun c => t.data [n, c]))) := by
  have hcond : ¬(t.shape.length ≠ 2 ∨ t.shape.getD 1 0 ≠ r.dof) := by
    rw [hshape]; simp
  refine ⟨_, by rw [fkHelperChecked, if_neg hcond], ?_, ?_⟩
  · simp [hshape]
  · intro n hn
    have hget : ((List.range (t.shape.getD 0 0)).map fun n =>
        fkHelperRow r (computePoseIds req) (fun jj => t.data [n, jj])).get ⟨n, hn⟩ =
        fkHelperRow r (computePoseIds req) (fun jj => t.data [n, jj]) := by
      simp [List.get_eq_getElem, List.getElem_map, List.getElem_range]
    rw [hget]
    constructor
    · rw [fk_poses_char r hwf hreq _ 0 (Or.inl rfl), chainPose_zero]
    · intro id hid hpos
      have hlen : id < r.links.length :=
        (computePoseIds_closed r hwf hreq id hid).1
      obtain ⟨j, hj, _, _⟩ := hwf.parent_spec id hpos hlen
      have hpar : j.parent ∈ computePoseIds req :=
        (computePoseIds_closed r hwf hreq id hid).2 j hj
      refine ⟨j, chainPose r (fun c => t.data [n, c]) j.parent, hj, ?_, ?_⟩
      · exact fk_poses_char r hwf hreq _ j.parent (Or.inr hpar)
      · rw [fk_poses_char r hwf hreq _ id (Or.inr hid),
          chainPose_step r hwf _ id hlen j hj]

/-- Witness for C1 on the concrete single-joint chain with a 1x1 batch. -/
theorem forward_pass_parent_child_compose_witness :
    ∃ rows : List (ℕ → Option SE3k),
      fkHelperChecked robotZ (computePoseIds [linkZ1])
          ⟨[1, 1], fun _ => 0⟩ = .ok rows ∧ rows.length = 1 ∧
      ∀ n : ℕ, ∀ hn : n < rows.length,
        rows.get ⟨n, hn⟩ 0 = some se3.one ∧
        ∀ id ∈ computePoseIds [linkZ1], 0 < id →
          ∃ j : Joint, ∃ p : SE3k, (robotZ.linkAt id).parent = some j ∧
            rows.get ⟨n, hn⟩ j.parent = some p ∧
            rows.get ⟨n, hn⟩ id =
              some (se3.compose p
                (jointRel robotZ j (fun c => (⟨[1, 1], fun _ => 0⟩ : RawTensor).data [n, c]))) :=
  forward_pass_parent_child_compose robotZ robotZ_wf [linkZ1]
    (by intro L hL; rw [List.mem_singleton] at hL; subst hL; simp [robotZ])
    ⟨[1, 1], fun _ => 0⟩ 1 rfl

/-! ### Claim C9: shape validation of the angle batch -/

/-- C9: a joint-angle tensor that is not 2-D or whose column count differs
from the chain's `dof` makes the forward pass fail with the shape-validation
error before producing any pose, and every `N x dof` tensor passes the
check. -/
theorem angle_batch_shape_validation (r : Robot) (poseIds : List ℕ)
    (t : RawTensor) :
    (t.shape.length ≠ 2 ∨ t.shape.getD 1 0 ≠ r.dof →
      fkHelperChecked r poseIds t = .error (.shapeError r.name)) ∧
    (∀ N : ℕ, t.shape = [N, r.dof] →
      ∃ rows, fkHelperChecked r poseIds t = .ok rows) := by
  constructor
  · intro h
    rw [fkHelperChecked, if_pos h]
  · intro N h
    exact ⟨(List.range (t.shape.getD 0 0)).map fun n =>
        fkHelperRow r poseIds (fun jj => t.data [n, jj]),
      by rw [fkHelperChecked, if_neg (by rw [h]; simp)]⟩

/-- Witness for C9: a 1-D tensor is rejected, a 2x1 tensor is accepted. -/
theorem angle_batch_shape_validation_witness :
    fkHelperChecked robotZ [] ⟨[3], fun _ => 0⟩ =
        .error (.shapeError "robotZ") ∧
      ∃ rows, fkHelperChecked robotZ [] ⟨[2, 1], fun _ => 0⟩ = .ok rows :=
  ⟨(angle_batch_shape_validation robotZ [] ⟨[3], fun _ => 0⟩).1 (by norm_num),
   (angle_batch_shape_validation robotZ [] ⟨[2, 1], fun _ => 0⟩).2 2 rfl⟩

/-! ### Claim C8: unknown link names -/

theorem resolveLinks_error (r : Robot) :
    ∀ ns : List String, (∃ n ∈ ns, r.linkMap n = none) →
      ∃ m, r.linkMap m = none ∧ resolveLinks r ns = .error (.lookupError m) := by
  intro ns
  induction ns with
  | nil => rintro ⟨n, hn, _⟩; exact absurd hn (List.not_mem_nil n)
  | cons n rest ih =>
    rintro ⟨m0, hm0, hnone⟩
    rcases hmap : r.linkMap n with _ | L
    · exact ⟨n, hmap, by simp only [resolveLinks, hmap]⟩
    · have hmem : m0 ∈ rest := by
        rcases List.mem_cons.mp hm0 with rfl | h
        · rw [hmap] at hnone
          exact absurd hnone (by simp)
        · exact h
      obtain ⟨m, hm, herr⟩ := ih ⟨m0, hmem, hnone⟩
      refine ⟨m, hm, ?_⟩
      simp only [resolveLinks, hmap, herr]
      rfl

/-- C8: a forward-kinematics call whose requested link names contain a name
absent from the chain fails with a lookup error, producing no output at all
(the `Except` result carries no pose for any link). -/
theorem unknown_link_name_lookup_error (r : Robot) (names : List String)
    (t : RawTensor) (h : ∃ n ∈ names, r.linkMap n = none) :
    ∃ m, r.linkMap m = none ∧
      fkCall r (some names) t = .error (.lookupError m) := by
  obtain ⟨m, hm, herr⟩ := resolveLinks_error r names h
  refine ⟨m, hm, ?_⟩
  simp only [fkCall, herr]
  rfl

/-- Witness for C8: requesting the name `nolink` on the concrete chain. -/
theorem unknown_link_name_lookup_error_witness :
    ∃ m, robotZ.linkMap m = none ∧
      fkCall robotZ (some ["nolink"]) ⟨[1, 1], fun _ => 0⟩ =
        .error (.lookupError m) :=
  unknown_link_name_lookup_error robotZ ["nolink"] ⟨[1, 1], fun _ => 0⟩
    ⟨"nolink", List.mem_singleton.mpr rfl, rfl⟩

/-! ### Claim C5: angle_ids are exactly the non-fixed ancestor joint ids -/

theorem rootPathAux_zero (r : Robot) (hwf : WellFormed r) (fuel : ℕ) :
    rootPathAux r fuel 0 = [] := by
  cases fuel with
  | zero => rfl
  | succ f => simp only [rootPathAux, hwf.root_parent]

theorem rootPathAux_fuel (r : Robot) (hwf : WellFormed r) :
    ∀ i : ℕ, i < r.links.length → ∀ f1 f2 : ℕ, i ≤ f1 → i ≤ f2 →
      rootPathAux r f1 i = rootPathAux r f2 i := by
  intro i
  induction i using Nat.strong_induction_on with
  | _ i ih =>
    intro hi f1 f2 hf1 hf2
    rcases Nat.eq_zero_or_pos i with h0 | hpos
    · subst h0
      rw [rootPathAux_zero r hwf f1, rootPathAux_zero r hwf f2]
    · obtain ⟨j, hj, hjlt, _⟩ := hwf.parent_spec i hpos hi
      cases f1 with
      | zero => omega
      | succ f1' =>
        cases f2 with
        | zero => omega
        | succ f2' =>
          simp only [rootPathAux, hj]
          rw [ih j.parent hjlt (lt_trans hjlt hi) f1' f2' (by omega) (by omega)]

/-- Unfolding `rootPath` one step along the parent joint. -/
theorem rootPath_step (r : Robot) (hwf : WellFormed r) (i : ℕ)
    (hi : i < r.links.length) (j : Joint) (hj : (r.linkAt i).parent = some j) :
    rootPath r i = rootPath r j.parent ++ [j] := by
  have hpos : 0 < i := by
    rcases Nat.eq_zero_or_pos i with h0 | h
    · rw [h0, hwf.root_parent] at hj
      exact absurd hj (by simp)
    · exact h
  obtain ⟨j', hj', hjlt, _⟩ := hwf.parent_spec i hpos hi
  have hjj : j' = j := by rw [hj] at hj'; exact (Option.some_injective _ hj').symm
  subst hjj
  cases i with
  | zero => omega
  | succ i' =>
    rw [rootPath]
    simp only [rootPathAux, hj]
    rw [rootPath,
      rootPathAux_fuel r hwf j'.parent (lt_trans hjlt hi) i' j'.parent
        (by omega) (le_refl _)]

/-- C5: the `angle_ids` list of every link of a well-formed chain is exactly
the list of assigned ids of the non-fixed joints on the root-to-link joint
path, in root-to-link order (fixed joints contribute nothing), and the
`ancestors` list is exactly the parent-link ids along that path; the root
(whose path is empty) consequently has empty ancestors and empty angle_ids. -/
theorem angle_ids_are_nonfixed_ancestor_joints (r : Robot) (hwf : WellFormed r) :
    ∀ i : ℕ, i < r.links.length →
      (r.linkAt i).ancestors = (rootPath r i).map (fun j => j.parent) ∧
      (r.linkAt i).angle_ids =
        (rootPath r i).filterMap
          (fun j => if j.jtype.isFixed then none else some j.id) := by
  intro i
  induction i using Nat.strong_induction_on with
  | _ i ih =>
    intro hi
    rcases Nat.eq_zero_or_pos i with rfl | hpos
    · constructor
      · rw [hwf.root_anc, rootPath, rootPathAux_zero r hwf 0]
        rfl
      · rw [hwf.root_aid, rootPath, rootPathAux_zero r hwf 0]
        rfl
    · obtain ⟨j, hj, hjlt, _⟩ := hwf.parent_spec i hpos hi
      obtain ⟨iha, ihd⟩ := ih j.parent hjlt (lt_trans hjlt hi)
      rw [rootPath_step r hwf i hi j hj]
      constructor
      · rw [hwf.anc_rec i j hi hj, iha, List.map_append]
        rfl
      · rw [hwf.aid_rec i j hi hj, ihd, List.filterMap_append]
        congr 1
        cases hf : j.jtype.isFixed <;> simp [List.filterMap, hf]

/-- Witness for C5 at link 1 of the concrete chain. -/
theorem angle_ids_are_nonfixed_ancestor_joints_witness :
    (robotZ.linkAt 1).ancestors = (rootPath robotZ 1).map (fun j => j.parent) ∧
      (robotZ.linkAt 1).angle_ids =
        (rootPath robotZ 1).filterMap
          (fun j => if j.jtype.isFixed then none else some j.id) :=
  angle_ids_are_nonfixed_ancestor_joints robotZ robotZ_wf 1 Nat.one_lt_two

/-! ### Claim C2: the Jacobian pass -/

/-- Every member of a link's `angle_ids` is the id of a non-fixed joint whose
child link (id `c+1`) is the link itself or one of its ancestors. -/
theorem mem_angle_ids_spec (r : Robot) (hwf : WellFormed r) :
    ∀ i : ℕ, i < r.links.length → ∀ c ∈ (r.linkAt i).angle_ids,
      c < r.dof ∧ (c + 1 ∈ (r.linkAt i).ancestors ∨ c + 1 = i) ∧
      ∃ j : Joint, (r.linkAt (c + 1)).parent = some j ∧ j.id = c ∧
        j.jtype.isFixed = false := by
  intro i
  induction i using Nat.strong_induction_on with
  | _ i ih =>
    intro hi c hc
    rcases Nat.eq_zero_or_pos i with rfl | hpos
    · rw [hwf.root_aid] at hc
      exact absurd hc (List.not_mem_nil c)
    · obtain ⟨j, hj, hjlt, hjid⟩ := hwf.parent_spec i hpos hi
      rw [hwf.aid_rec i j hi hj] at hc
      rcases List.mem_append.mp hc with hin | hnew
      · obtain ⟨hdof, hup, hex⟩ := ih j.parent hjlt (lt_trans hjlt hi) c hin
        refine ⟨hdof, Or.inl ?_, hex⟩
        rw [hwf.anc_rec i j hi hj]
        rcases hup with h | h
        · exact List.mem_append.mpr (Or.inl h)
        · exact List.mem_append.mpr (Or.inr (by rw [h]; exact List.mem_singleton.mpr rfl))
      · rcases hfix : j.jtype.isFixed with _ | _
        · rw [hfix] at hnew
          have hcid : c = j.id := by simpa using hnew
          have hdof : c < r.dof := by
            have hiff := hwf.fixed_iff i j hi hj
            rw [hfix] at hiff
            have hn : ¬ r.dof ≤ j.id := fun hle => absurd (hiff.mpr hle) (by simp)
            omega
          refine ⟨hdof, Or.inr (by omega), j, ?_, hcid.symm, hfix⟩
          rw [show c + 1 = i by omega]
          exact hj
        · rw [hfix] at hnew
          simp at hnew

/-- The Jacobian loop leaves unwritten columns unchanged. -/
theorem jfkLoop_not_mem (r : Robot) (poses : ℕ → Option SE3k) :
    ∀ (l : List ℕ) (jposes : ℕ → Vec6) (c : ℕ),
      (∀ id ∈ l, ∃ j : Joint, (r.linkAt id).parent = some j ∧ j.id + 1 = id) →
      c + 1 ∉ l →
      jfkLoop r poses l jposes c = jposes c := by
  intro l
  induction l with
  | nil => intro jposes c _ _; rfl
  | cons id rest ih =>
    intro jposes c hpar hc
    obtain ⟨j, hj, hid⟩ := hpar id (List.mem_cons_self id rest)
    simp only [jfkLoop, hj]
    by_cases hb : r.dof ≤ j.id
    · rw [if_pos hb]
    · rw [if_neg hb]
      rw [ih _ c (fun x hx => hpar x (List.mem_cons_of_mem id hx))
        (fun h => hc (List.mem_cons_of_mem id h))]
      refine Function.update_noteq ?_ _ jposes
      intro h
      exact hc (by rw [h, hid]; exact List.mem_cons_self id rest)

/-- The Jacobian loop writes the column of every non-fixed joint whose child
link is visited before the break with `adjoint(pose) @ axis`. -/
theorem jfkLoop_written (r : Robot) (poses : ℕ → Option SE3k) :
    ∀ (l : List ℕ) (jposes : ℕ → Vec6) (c : ℕ),
      l.Pairwise (· < ·) →
      (∀ id ∈ l, ∃ j : Joint, (r.linkAt id).parent = some j ∧ j.id + 1 = id) →
      c + 1 ∈ l → c < r.dof →
      ∀ j : Joint, (r.linkAt (c + 1)).parent = some j →
        jfkLoop r poses l jposes c =
          se3.adjAct ((poses (c + 1)).getD se3.one) j.axis := by
  intro l
  induction l with
  | nil => intro jposes c _ _ hc; exact absurd hc (List.not_mem_nil _)
  | cons id rest ih =>
    intro jposes c hpair hpar hc hdof j hj
    obtain ⟨jh, hjh, hidh⟩ := hpar id (List.mem_cons_self id rest)
    have hlt : ∀ x ∈ rest, id < x := (List.pairwise_cons.mp hpair).1
    simp only [jfkLoop, hjh]
    by_cases hb : r.dof ≤ jh.id
    · exfalso
      rcases List.mem_cons.mp hc with h | h
      · omega
      · exact absurd (hlt _ h) (by omega)
    · rw [if_neg hb]
      rcases List.mem_cons.mp hc with h | h
      · have hjj : jh = j := by
          rw [← h] at hjh
          rw [hj] at hjh
          exact (Option.some_injective _ hjh).symm
        subst hjj
        have hcid : jh.id = c := by omega
        rw [jfkLoop_not_mem r poses rest _ c
          (fun x hx => hpar x (List.mem_cons_of_mem id hx))
          (fun hm => absurd (hlt _ hm) (by omega))]
        rw [hcid, Function.update_same, ← h]
      · exact ih _ c (List.pairwise_cons.mp hpair).2
          (fun x hx => hpar x (List.mem_cons_of_mem id hx)) h hdof j hj

/-- The `jposes` column of a non-fixed joint whose child link is visited
holds the adjoint of the child link's world pose applied to the joint's
axis. -/
theorem jposes_char (r : Robot) (hwf : WellFormed r) {req : List Link}
    (hreq : ∀ L ∈ req, L ∈ r.links) (angles : ℕ → ℝ) (c : ℕ)
    (hdof : c < r.dof) (hmem : c + 1 ∈ computePoseIds req)
    (j : Joint) (hj : (r.linkAt (c + 1)).parent = some j) :
    jfkJposesRow r (computePoseIds req)
        (fkHelperRow r (computePoseIds req) angles) c =
      se3.adjAct (chainPose r angles (c + 1)) j.axis := by
  have h0 : 0 ∈ computePoseIds req := zero_mem_computePoseIds r hwf hreq hmem
  obtain ⟨hcons, htail⟩ := sorted_zero_cons (computePoseIds_pairwise req) h0
  have htp : (computePoseIds req).tail.Pairwise (· < ·) := by
    have hp := computePoseIds_pairwise req
    rw [hcons] at hp
    exact (List.pairwise_cons.mp hp).2
  have hpar : ∀ id ∈ (computePoseIds req).tail,
      ∃ j' : Joint, (r.linkAt id).parent = some j' ∧ j'.id + 1 = id := by
    intro id hid
    obtain ⟨j', hj', _, hid'⟩ := hwf.parent_spec id (htail id hid).1
      (computePoseIds_closed r hwf hreq id (htail id hid).2).1
    exact ⟨j', hj', hid'⟩
  have hct : c + 1 ∈ (computePoseIds req).tail := by
    rw [hcons] at hmem
    rcases List.mem_cons.mp hmem with h | h
    · omega
    · exact h
  rw [jfkJposesRow, jfkLoop_written r _ _ _ c htp hpar hct hdof j hj,
    fk_poses_char r hwf hreq angles (c + 1) (Or.inr (htail _ hct).2)]
  rfl

/-- C2: for every well-formed chain, angle assignment and requested link, the
assembled per-link Jacobian matrix has, at each column of an ancestor
non-fixed joint (a member of the link's `angle_ids`), the body-frame
contribution `adjoint(inverse(link_pose)) @ (adjoint(child_link_pose) @
joint.axis)` — the adjoint of the joint's child-link world pose applied to
the joint's 6-vector axis, transported into the requested link's frame — and
zero in every column whose joint id is not among the link's `angle_ids`. -/
theorem jacobian_pass_columns (r : Robot) (hwf : WellFormed r) (req : List Link)
    (hreq : ∀ L ∈ req, L ∈ r.links) (angles : ℕ → ℝ) (k : ℕ)
    (hk : k < req.length) (hk2 : k < (jfkImplRow r req angles).1.length) :
    ∃ gL : SE3k,
      fkHelperRow r (computePoseIds req) angles (req.get ⟨k, hk⟩).id = some gL ∧
      ∀ c : ℕ, c < r.dof →
        (c ∉ (req.get ⟨k, hk⟩).angle_ids →
          (jfkImplRow r req angles).1.get ⟨k, hk2⟩ c = 0) ∧
        (c ∈ (req.get ⟨k, hk⟩).angle_ids →
          ∃ j : Joint, ∃ gc : SE3k,
            (r.linkAt (c + 1)).parent = some j ∧ j.id = c ∧
            j.jtype.isFixed = false ∧
            fkHelperRow r (computePoseIds req) angles (c + 1) = some gc ∧
            (jfkImplRow r req angles).1.get ⟨k, hk2⟩ c =
              se3.adjAct (se3.inverse gL) (se3.adjAct gc j.axis)) := by
  have hLmem : req.get ⟨k, hk⟩ ∈ req := List.get_mem req k hk
  obtain ⟨hLlen, hLat⟩ := mem_links_linkAt r hwf (hreq _ hLmem)
  have hLid : (req.get ⟨k, hk⟩).id ∈ computePoseIds req :=
    mem_computePoseIds.mpr (Or.inr ⟨_, hLmem, rfl⟩)
  have hjget : (jfkImplRow r req angles).1.get ⟨k, hk2⟩ = fun c =>
      if c ∈ (req.get ⟨k, hk⟩).angle_ids then
        se3.adjAct
          (se3.inverse ((fkHelperRow r (computePoseIds req) angles
            ((req.get ⟨k, hk⟩).id)).getD se3.one))
          (jfkJposesRow r (computePoseIds req)
            (fkHelperRow r (computePoseIds req) angles) c)
      else 0 := by
    simp only [jfkImplRow]
    simp [List.get_eq_getElem, List.getElem_map]
  refine ⟨chainPose r angles (req.get ⟨k, hk⟩).id,
    fk_poses_char r hwf hreq angles _ (Or.inr hLid), ?_⟩
  intro c hc
  constructor
  · intro hcn
    rw [hjget]
    simp only [if_neg hcn]
  · intro hcm
    have hcm' : c ∈ (r.linkAt (req.get ⟨k, hk⟩).id).angle_ids := by
      rw [hLat]; exact hcm
    obtain ⟨hdof, hup, j, hj, hjid, hjfix⟩ :=
      mem_angle_ids_spec r hwf _ hLlen c hcm'
    have hmem1 : c + 1 ∈ computePoseIds req := by
      rcases hup with h | h
      · rw [hLat] at h
        exact mem_computePoseIds.mpr (Or.inl ⟨_, hLmem, h⟩)
      · rw [h]; exact hLid
    refine ⟨j, chainPose r angles (c + 1), hj, hjid, hjfix,
      fk_poses_char r hwf hreq angles _ (Or.inr hmem1), ?_⟩
    rw [hjget]
    simp only [if_pos hcm]
    rw [jposes_char r hwf hreq angles c hdof hmem1 j hj,
      fk_poses_char r hwf hreq angles _ (Or.inr hLid)]
    rfl

/-- Witness for C2 on the concrete single-joint chain. -/
theorem jacobian_pass_columns_witness :
    ∃ gL : SE3k,
      fkHelperRow robotZ (computePoseIds [linkZ1]) (fun _ => 0)
          ([linkZ1].get ⟨0, Nat.zero_lt_one⟩).id = some gL ∧
      ∀ c : ℕ, c < robotZ.dof →
        (c ∉ ([linkZ1].get ⟨0, Nat.zero_lt_one⟩).angle_ids →
          (jfkImplRow robotZ [linkZ1] (fun _ => 0)).1.get
            ⟨0, by simp [jfkImplRow]⟩ c = 0) ∧
        (c ∈ ([linkZ1].get ⟨0, Nat.zero_lt_one⟩).angle_ids →
          ∃ j : Joint, ∃ gc : SE3k,
            (robotZ.linkAt (c + 1)).parent = some j ∧ j.id = c ∧
            j.jtype.isFixed = false ∧
            fkHelperRow robotZ (computePoseIds [linkZ1]) (fun _ => 0) (c + 1) =
              some gc ∧
            (jfkImplRow robotZ [linkZ1] (fun _ => 0)).1.get
              ⟨0, by simp [jfkImplRow]⟩ c =
                se3.adjAct (se3.inverse gL) (se3.adjAct gc j.axis)) :=
  jacobian_pass_columns robotZ robotZ_wf [linkZ1]
    (by intro L hL; rw [List.mem_singleton] at hL; subst hL; simp [robotZ])
    (fun _ => 0) 0 Nat.zero_lt_one (by simp [jfkImplRow])

/-! ### Claim C3: the backward pass accumulates per-link contributions -/

/-- Folding an accumulation step turns into a sum of per-pair
contributions. -/
theorem foldl_accum_sum (f : Link × AMat → ℕ → ℝ) :
    ∀ (pairs : List (Link × AMat)) (z : ℕ → ℝ) (c : ℕ),
      (pairs.foldl (fun grad p => fun x => grad x + f p x) z) c =
        z c + (pairs.map (fun p => f p c)).sum := by
  intro pairs
  induction pairs with
  | nil => intro z c; simp
  | cons p ps ih =>
    intro z c
    rw [List.foldl_cons, ih, List.map_cons, List.sum_cons]
    ring

/-- Closed form of one backward-pass row: the gradient entry at column `c` is
the sum over the requested (link, upstream-gradient) pairs of that link's
contribution. -/
theorem fkBackwardRow_eq_sum (r : Robot) (req : List Link) (angles : ℕ → ℝ)
    (gouts : List AMat) (c : ℕ) :
    fkBackwardRow r req angles gouts c =
      ((req.zip gouts).map (fun Lg =>
        if c ∈ Lg.1.angle_ids then
          dot6 (jfkJposesRow r (computePoseIds req)
              (fkHelperRow r (computePoseIds req) angles) c)
            (se3.project (bwCat Lg.2
              ((fkHelperRow r (computePoseIds req) angles Lg.1.id).getD se3.one)))
        else 0)).sum := by
  have h := foldl_accum_sum (fun Lg x =>
      if x ∈ Lg.1.angle_ids then
        dot6 (jfkJposesRow r (computePoseIds req)
            (fkHelperRow r (computePoseIds req) angles) x)
          (se3.project (bwCat Lg.2
            ((fkHelperRow r (computePoseIds req) angles Lg.1.id).getD se3.one)))
      else 0) (req.zip gouts) (fun _ => 0) c
  rw [zero_add] at h
  exact h

/-- C3: the backward pass on a list of requested links with upstream pose
gradients returns, at every column, the sum over the requested links of the
gradient a single-link backward call on that link alone would return; in
particular contributions of links sharing an ancestor joint add up. -/
theorem backward_pass_additive (r : Robot) (hwf : WellFormed r)
    (req : List Link) (hreq : ∀ L ∈ req, L ∈ r.links) (angles : ℕ → ℝ)
    (gouts : List AMat) (c : ℕ) :
    fkBackwardRow r req angles gouts c =
      ((req.zip gouts).map
        (fun Lg => fkBackwardRow r [Lg.1] angles [Lg.2] c)).sum := by
  rw [fkBackwardRow_eq_sum]
  congr 1
  apply List.map_congr_left
  intro Lg hLg
  obtain ⟨hL, _⟩ := List.of_mem_zip hLg
  have hreqS : ∀ L' ∈ [Lg.1], L' ∈ r.links := by
    intro L' h
    rw [List.mem_singleton] at h
    subst h
    exact hreq _ hL
  have hLS : Lg.1 ∈ [Lg.1] := List.mem_singleton.mpr rfl
  rw [fkBackwardRow_eq_sum]
  have hz : [Lg.1].zip [Lg.2] = [(Lg.1, Lg.2)] := rfl
  rw [hz, List.map_cons, List.map_nil, List.sum_cons, List.sum_nil, add_zero]
  by_cases hc : c ∈ Lg.1.angle_ids
  · simp only [if_pos hc]
    obtain ⟨hLlen, hLat⟩ := mem_links_linkAt r hwf (hreq _ hL)
    have hcm' : c ∈ (r.linkAt Lg.1.id).angle_ids := by rw [hLat]; exact hc
    obtain ⟨hdof, hup, j, hj, hjid, hjfix⟩ :=
      mem_angle_ids_spec r hwf _ hLlen c hcm'
    have hidM : Lg.1.id ∈ computePoseIds req :=
      mem_computePoseIds.mpr (Or.inr ⟨_, hL, rfl⟩)
    have hidS : Lg.1.id ∈ computePoseIds [Lg.1] :=
      mem_computePoseIds.mpr (Or.inr ⟨_, hLS, rfl⟩)
    have hmemM : c + 1 ∈ computePoseIds req := by
      rcases hup with h | h
      · rw [hLat] at h
        exact mem_computePoseIds.mpr (Or.inl ⟨_, hL, h⟩)
      · rw [h]; exact hidM
    have hmemS : c + 1 ∈ computePoseIds [Lg.1] := by
      rcases hup with h | h
      · rw [hLat] at h
        exact mem_computePoseIds.mpr (Or.inl ⟨_, hLS, h⟩)
      · rw [h]; exact hidS
    rw [jposes_char r hwf hreq angles c hdof hmemM j hj,
      jposes_char r hwf hreqS angles c hdof hmemS j hj,
      fk_poses_char r hwf hreq angles _ (Or.inr hidM),
      fk_poses_char r hwf hreqS angles _ (Or.inr hidS)]
  · simp only [if_neg hc]

/-- Witness for C3 on the concrete chain with one requested link and a zero
upstream gradient. -/
theorem backward_pass_additive_witness :
    fkBackwardRow robotZ [linkZ1] (fun _ => 0) [(0 : AMat)] 0 =
      (([linkZ1].zip [(0 : AMat)]).map
        (fun Lg => fkBackwardRow robotZ [Lg.1] (fun _ => 0) [Lg.2] 0)).sum :=
  backward_pass_additive robotZ robotZ_wf [linkZ1]
    (by intro L hL; rw [List.mem_singleton] at hL; subst hL; simp [robotZ])
    (fun _ => 0) [(0 : AMat)] 0

end Theseus
